import Mathlib

/-!
Verification of the `path_reconstructor` repository.

The definitions below are a shallow embedding of the Python sources
`src/path_reconstructor/log_sequences.py` and
`src/path_reconstructor/graph_processing.py`.  A networkx `DiGraph` is
modelled as a node list together with an edge list; the networkx generator
`shortest_simple_paths` is modelled by an exhaustive enumeration of simple
paths sorted by nondecreasing length (the generator raises `NodeNotFound`
when an endpoint is not a node of the graph and `NetworkXNoPath` when no
path exists; both exceptions are represented by the failure guard in
`kShortestPaths`).  `random.choice` is modelled by an arbitrary draw
`r : Nat`, interpreted as the index `r % length` into the candidate list,
and the whole reconstruction takes a stream `rnd : Nat → Nat` of draws, so
that universally quantified theorems cover every behaviour of the random
source.  Python exceptions and calls to `exit()` are modelled with
`Except PyErr`.
-/

namespace PathReconstructor

/-- A directed graph in the style of `networkx.DiGraph`: a list of node
identifiers and a list of directed edges. -/
structure Digraph where
  nodes : List String
  edges : List (String × String)
deriving DecidableEq, Repr

/-- Outcomes of Python exceptions and `exit()` calls that the sources can
produce. -/
inductive PyErr where
  /-- Raised when `cut_executed_nodes` prints "No ancestor node." and the offending
  path, then calls `exit()` (log_sequences.py lines 35-37). -/
  | noAncestor (path : List String)
  /-- Raised when `get_source` prints the list of in-degree-zero nodes and calls
  `exit()` (graph_processing.py lines 191-192). -/
  | multipleSources (sources : List String)
  /-- An uncaught Python `ZeroDivisionError`. -/
  | zeroDivision
  /-- An uncaught Python `IndexError`. -/
  | indexError
deriving DecidableEq, Repr

/-- The out-neighbours of `node`: `[e[1] for e in g.out_edges(node)]`. -/
def outDests (g : Digraph) (node : String) : List String :=
  (g.edges.filter (fun e => e.1 == node)).map (fun e => e.2)

/-- Mirror of the loop `for e in g.in_edges(node): sources.append(e[1])` in
`is_path_direct` (log_sequences.py lines 55-58).  Every in-edge `e` of
`node` has `e[1] == node`, so this list is `node` repeated once per
in-edge; the source kept `e[1]`, not `e[0]`. -/
def inSources (g : Digraph) (node : String) : List String :=
  (g.edges.filter (fun e => e.2 == node)).map (fun e => e.2)

/-- Model of `g.in_degree(node)`: the number of edges into `node`. -/
def inDegree (g : Digraph) (node : String) : Nat :=
  (g.edges.filter (fun e => e.2 == node)).length

/-- Model of `g.to_undirected()` (log_sequences.py line 150): the symmetric closure
of the edge relation over the same nodes. -/
def undirect (g : Digraph) : Digraph :=
  { nodes := g.nodes, edges := g.edges ++ g.edges.map (fun e => (e.2, e.1)) }

/-- Enumerate the simple paths from `c` to `t` by depth-first search.
`vis` holds the nodes already on the current path and `fuel` bounds the
remaining depth; called with `fuel = g.nodes.length`, which covers every
simple path.  This models the set of paths yielded by
`networkx.shortest_simple_paths` (for `c = t` that generator yields exactly
the trivial path `[c]`, as does this enumeration). -/
def spAux (g : Digraph) (t : String) : Nat → String → List String → List (List String)
  | 0, _, _ => []
  | fuel + 1, c, vis =>
    if c = t then [[c]]
    else
      ((outDests g c).filter (fun nx => !(vis.contains nx))).flatMap
        (fun nx => (spAux g t fuel nx (nx :: vis)).map (fun p => c :: p))

/-- All simple paths from `s` to `t` in `g`. -/
def simplePaths (g : Digraph) (s t : String) : List (List String) :=
  spAux g t g.nodes.length s [s]

/-- Insert a path into a list of paths kept in nondecreasing length
order. -/
def insertByLen (p : List String) : List (List String) → List (List String)
  | [] => [p]
  | q :: qs => if p.length ≤ q.length then p :: q :: qs else q :: insertByLen p qs

/-- Sort paths by nondecreasing length, the order in which
`networkx.shortest_simple_paths` yields them. -/
def sortByLen : List (List String) → List (List String)
  | [] => []
  | p :: ps => insertByLen p (sortByLen ps)

/-- Model of `k_shortest_paths` (log_sequences.py lines 5-10):
`list(islice(nx.shortest_simple_paths(G, source, target), 7))`, and on any
exception — `NodeNotFound` (an endpoint is not a node of `G`) or
`NetworkXNoPath` (no path exists, i.e. the enumeration is empty) — the
bare `except:` returns `[[]]`, a list containing one empty path. -/
def kShortestPaths (g : Digraph) (s t : String) : List (List String) :=
  let ps := sortByLen (simplePaths g s t)
  if s ∈ g.nodes ∧ t ∈ g.nodes ∧ ps ≠ [] then ps.take 7 else [[]]

/-- The cap `if len(paths) > 10: paths = paths[0:10]` used in
`cut_executed_nodes` (lines 31-32) and `find_execution_path`
(lines 102-103). -/
def cap10 (l : List (List String)) : List (List String) :=
  if 10 < l.length then l.take 10 else l

/-- The loop of `cut_executed_nodes` (lines 29-34): find the first index
whose node has a truthy `k_shortest_paths` result to `lastNode`. -/
def cutScan (g : Digraph) (lastNode : String) : List String → Nat → Option Nat
  | [], _ => none
  | node :: rest, i =>
    if cap10 (kShortestPaths g node lastNode) = [] then cutScan g lastNode rest (i + 1)
    else some i

/-- Model of `cut_executed_nodes` (log_sequences.py lines 12-37).  Returns
`path[index:]` for the first index whose node has a truthy
`k_shortest_paths` result to `path[-1]`; if the loop finishes without
returning (in particular for an empty path) it prints "No ancestor node."
and calls `exit()`. -/
def cut_executed_nodes (g : Digraph) (path : List String) : Except PyErr (List String) :=
  match cutScan g (path.getLastD "") path 0 with
  | some i => Except.ok (path.drop i)
  | none => Except.error (PyErr.noAncestor path)

/-- The first loop of `is_path_direct` (lines 53-61): the last index whose
successor is not in `inSources` of the node (initialised to 0). -/
def dirChangeIndex (g : Digraph) (path : List String) : Nat :=
  path.dropLast.enum.foldl
    (fun acc pr =>
      if (inSources g pr.2).contains (path.getD (pr.1 + 1) "") then acc else pr.1)
    0

/-- Model of `is_path_direct` (log_sequences.py lines 39-70).  The second loop
enumerates `path[dir_change_index:-1]` but reads `path[index+1]` with the
loop-local `index` that restarts at 0, exactly as the source does. -/
def is_path_direct (g : Digraph) (path : List String) : List String :=
  let dci := dirChangeIndex g path
  if ((path.drop dci).dropLast).enum.all
      (fun pr => (outDests g pr.2).contains (path.getD (pr.1 + 1) "")) then
    path.drop dci
  else []

/-- The log-consistency filter condition of `find_execution_path`
(line 115): the interior `path[1:-1]` meets the logged-node set. -/
def hasLoggedInterior (logged : List String) (p : List String) : Bool :=
  ((p.drop 1).dropLast).any (fun x => logged.contains x)

/-- The undirected-fallback pool of `find_execution_path`
(lines 107-111): the undirected candidates together with every truthy
`is_path_direct` suffix.  The source appends to the list while iterating
over it; the appended suffixes would then be re-examined, but this branch
is unreachable because `kShortestPaths` never returns `[]` (see
`kShortestPaths_ne_nil`), so a single pass is an adequate model of the
dead branch. -/
def withDirectSuffixes (g : Digraph) (ps : List (List String)) : List (List String) :=
  ps ++ ps.filterMap
    (fun p => let sp := is_path_direct g p; if sp = [] then none else some sp)

/-- Model of `find_execution_path` (log_sequences.py lines 72-123).  `r` is the
draw of `random.choice`, interpreted as index `r % length` into the
surviving candidate list. -/
def find_execution_path (g u : Digraph) (node1 node2 last_dif_node : String)
    (logged_nodes : List String) (r : Nat) : Except PyErr (List String) :=
  -- Case 0: recursive call of a subroutine to itself (lines 92-98).
  if node1 = node2 ∧ node2 ∈ outDests g node1 then
    Except.ok [node1, node2]
  else
    let n1 := if node1 = node2 then last_dif_node else node1
    -- Case 1: direct link between the two nodes (lines 99-103).
    let direct := cap10 (kShortestPaths g n1 node2)
    -- Case 2: no direct link, must go back in the tree (lines 104-111).
    let is_direct := direct ≠ []
    let paths := if direct = [] then withDirectSuffixes g (kShortestPaths u n1 node2) else direct
    -- Remove paths with logged nodes (lines 112-116).
    let cleaned := paths.filter (fun p => !(hasLoggedInterior logged_nodes p))
    -- Select a possible path (lines 117-123).
    if cleaned = [] then Except.ok []
    else
      let choice := cleaned.getD (r % cleaned.length) []
      if is_direct then Except.ok choice else cut_executed_nodes g choice

/-- Model of `find_last_dif` (log_sequences.py lines 125-137). -/
def find_last_dif (nodes : List String) (new_node : String) : String :=
  match nodes.reverse.find? (fun i => i != new_node) with
  | some x => x
  | none => new_node

/-- The event loop of `reconstruct_path` (lines 154-161), threading the
step index `i` (used to draw `rnd i`) and the accumulator. -/
def reconstructGo (g u : Digraph) (logged_nodes : List String) (rnd : Nat → Nat) :
    Nat → List String → List String → Except PyErr (List String)
  | _, acc, [] => Except.ok acc
  | i, acc, node :: rest =>
    match find_execution_path g u (acc.getLastD "") node (find_last_dif acc node)
        logged_nodes (rnd i) with
    | Except.error e => Except.error e
    | Except.ok seg =>
      let new_path := seg.drop 1
      if new_path = [] then reconstructGo g u logged_nodes rnd (i + 1) (acc ++ [node]) rest
      else reconstructGo g u logged_nodes rnd (i + 1) (acc ++ new_path) rest

/-- Model of `reconstruct_path` (log_sequences.py lines 139-162).  The logged-node
set `set(logs)` is represented by the list `logs` itself (only membership
is ever queried).  The seeded source node is stripped by the final
`reconstruction[1:]`. -/
def reconstruct_path (g : Digraph) (logs : List String) (source : String)
    (rnd : Nat → Nat) : Except PyErr (List String) :=
  match reconstructGo g (undirect g) logs rnd 0 [source] logs with
  | Except.ok res => Except.ok (res.drop 1)
  | Except.error e => Except.error e

/-- The walk of `match_reconstruction` (lines 174-184) over `real`,
carrying the pointer `r_index` into `reconstructed`. -/
def matchGo (reconstructed : List String) : List String → Nat → List String
  | [], _ => []
  | node :: rest, r =>
    if r = reconstructed.length then " " :: matchGo reconstructed rest r
    else if node = reconstructed.getD r "" then node :: matchGo reconstructed rest (r + 1)
    else " " :: matchGo reconstructed rest r

/-- Model of `match_reconstruction` (log_sequences.py lines 164-184).  Gaps are the
one-space string `" "`, as in the source. -/
def match_reconstruction (real reconstructed : List String) : List String :=
  matchGo reconstructed real 0

/-- The loop of `get_true_positive` (lines 195-198): walk `real` with an
index into `matched`; reading past the end of `matched` raises a Python
`IndexError`. -/
def gtpGo : List String → List String → Except PyErr Nat
  | [], _ => Except.ok 0
  | _ :: _, [] => Except.error PyErr.indexError
  | r :: rs, m :: ms =>
    match gtpGo rs ms with
    | Except.error e => Except.error e
    | Except.ok c => Except.ok (if r = m then c + 1 else c)

/-- Model of `get_true_positive` (log_sequences.py lines 186-199). -/
def get_true_positive (real matched : List String) : Except PyErr Nat :=
  gtpGo real matched

/-- Model of `evaluate_precision` (log_sequences.py lines 201-212).  The division
`tp / len(reconstructed)` raises a Python `ZeroDivisionError` when
`reconstructed` is empty. -/
def evaluate_precision (real reconstructed : List String) : Except PyErr ℚ :=
  match get_true_positive real (match_reconstruction real reconstructed) with
  | Except.error e => Except.error e
  | Except.ok tp =>
    if reconstructed.length = 0 then Except.error PyErr.zeroDivision
    else Except.ok ((tp : ℚ) / (reconstructed.length : ℚ))

/-- Model of `evaluate_recall` (log_sequences.py lines 214-224).  The division
`tp / len(matched)` raises a Python `ZeroDivisionError` when `matched` is
empty (but `get_true_positive` raises `IndexError` first when `real` is
longer than `matched`). -/
def evaluate_recall (real matched : List String) : Except PyErr ℚ :=
  match get_true_positive real matched with
  | Except.error e => Except.error e
  | Except.ok tp =>
    if matched.length = 0 then Except.error PyErr.zeroDivision
    else Except.ok ((tp : ℚ) / (matched.length : ℚ))

/-- The list comprehension of `get_source` (graph_processing.py line 189):
`[node for node in g if g.in_degree(node) == 0]`. -/
def sourceCandidates (g : Digraph) : List String :=
  g.nodes.filter (fun node => inDegree g node == 0)

/-- Model of `get_source` (graph_processing.py lines 180-193): the in-degree-zero
nodes; `exit()` unless there is exactly one. -/
def get_source (g : Digraph) : Except PyErr String :=
  if (sourceCandidates g).length == 1 then Except.ok ((sourceCandidates g).headD "")
  else Except.error (PyErr.multipleSources (sourceCandidates g))

/-- Direction-consistency extraction as worded by claim C4 and spec §4.3,
for comparison with `is_path_direct`: the last position whose predecessor
`path[i+1]` is not an in-neighbour of the successor `path[i]` (no edge
`path[i+1] → path[i]`), then the suffix from that position is returned
when each consecutive pair of the suffix is a directed out-edge. -/
def is_path_direct_spec (g : Digraph) (path : List String) : List String :=
  let dci := path.dropLast.enum.foldl
    (fun acc pr =>
      if g.edges.contains (path.getD (pr.1 + 1) "", pr.2) then acc else pr.1)
    0
  if ((path.drop dci).dropLast).enum.all
      (fun pr => g.edges.contains (pr.2, path.getD (dci + pr.1 + 1) "")) then
    path.drop dci
  else []

/-- Concrete graph with nodes `X, Y, A` and the single edge `X → Y`: there
is no path from `A` to `Y`. -/
def gNoPath : Digraph := { nodes := ["X", "Y", "A"], edges := [("X", "Y")] }

/-- Concrete graph with edges `S → X` and `X → Y`, used to exhibit the
behaviour of `is_path_direct` on the path `[X, X, Y]`. -/
def gChain : Digraph := { nodes := ["S", "X", "Y"], edges := [("S", "X"), ("X", "Y")] }

/-- Concrete graph with a single node carrying a self-loop. -/
def gLoop : Digraph := { nodes := ["L"], edges := [("L", "L")] }

/-- Concrete graph with the unique in-degree-zero node `A`. -/
def gSrc : Digraph := { nodes := ["A", "B"], edges := [("A", "B")] }

/-! ### Helper lemmas -/

theorem getD_mem_of_lt {α : Type} (l : List α) (n : Nat) (d : α) (h : n < l.length) :
    l.getD n d ∈ l := by
  rw [List.getD_eq_getElem l d h]
  exact List.getElem_mem h

theorem mem_of_getLast?_eq {α : Type} :
    ∀ (l : List α) (a : α), l.getLast? = some a → a ∈ l
  | [], a, h => by simp at h
  | [b], a, h => by
    simp only [List.getLast?_singleton, Option.some.injEq] at h
    simp [h]
  | b :: c :: t, a, h => by
    rw [List.getLast?_cons_cons] at h
    exact List.mem_cons_of_mem b (mem_of_getLast?_eq (c :: t) a h)

theorem drop_one_getLast? {α : Type} (l : List α) (h : l.drop 1 ≠ []) :
    (l.drop 1).getLast? = l.getLast? := by
  match l with
  | [] => simp at h
  | [a] => simp at h
  | a :: b :: t => simp [List.getLast?_cons_cons]

theorem insertByLen_perm (p : List String) :
    ∀ l, List.Perm (insertByLen p l) (p :: l) := by
  intro l
  induction l with
  | nil => simp [insertByLen]
  | cons q qs ih =>
    by_cases h : p.length ≤ q.length
    · simp [insertByLen, h]
    · simp only [insertByLen, if_neg h]
      exact (ih.cons q).trans (List.Perm.swap p q qs)

theorem sortByLen_perm : ∀ l, List.Perm (sortByLen l) l := by
  intro l
  induction l with
  | nil => simp [sortByLen]
  | cons p ps ih =>
    exact (insertByLen_perm p (sortByLen ps)).trans (ih.cons p)

theorem spAux_mem (g : Digraph) (t : String) :
    ∀ (fuel : Nat) (c : String) (vis : List String) (p : List String),
      p ∈ spAux g t fuel c vis →
      p.getLast? = some t ∧ 0 < p.length ∧ p.length ≤ fuel := by
  intro fuel
  induction fuel with
  | zero => intro c vis p h; simp [spAux] at h
  | succ fuel ih =>
    intro c vis p h
    by_cases hc : c = t
    · rw [spAux, if_pos hc] at h
      simp only [List.mem_singleton] at h
      subst h
      subst hc
      exact ⟨rfl, by simp, by simp⟩
    · rw [spAux, if_neg hc] at h
      obtain ⟨nx, _, hp⟩ := List.mem_flatMap.mp h
      obtain ⟨q, hq, hpe⟩ := List.mem_map.mp hp
      obtain ⟨hl, hpos, hlen⟩ := ih nx (nx :: vis) q hq
      subst hpe
      have hq' : q ≠ [] := by
        intro he; rw [he] at hpos; simp at hpos
      refine ⟨?_, by simp, by simp; omega⟩
      match q, hq' with
      | b :: tq, _ => rw [List.getLast?_cons_cons]; exact hl

theorem kShortestPaths_ne_nil (g : Digraph) (s t : String) :
    kShortestPaths g s t ≠ [] := by
  unfold kShortestPaths
  by_cases h : s ∈ g.nodes ∧ t ∈ g.nodes ∧ sortByLen (simplePaths g s t) ≠ []
  · rw [if_pos h]
    intro he
    rcases List.take_eq_nil_iff.mp he with h7 | hnil
    · exact absurd h7 (by norm_num)
    · exact h.2.2 hnil
  · rw [if_neg h]
    simp

theorem kShortestPaths_mem (g : Digraph) (s t : String) (p : List String)
    (h : p ∈ kShortestPaths g s t) :
    p = [] ∨ (p.getLast? = some t ∧ p.length ≤ g.nodes.length) := by
  unfold kShortestPaths at h
  by_cases hg : s ∈ g.nodes ∧ t ∈ g.nodes ∧ sortByLen (simplePaths g s t) ≠ []
  · rw [if_pos hg] at h
    have hps : p ∈ sortByLen (simplePaths g s t) := List.take_subset _ _ h
    have hsp : p ∈ simplePaths g s t := (sortByLen_perm _).mem_iff.mp hps
    obtain ⟨hl, _, hlen⟩ := spAux_mem g t g.nodes.length s [s] p hsp
    exact Or.inr ⟨hl, hlen⟩
  · rw [if_neg hg] at h
    simp only [List.mem_singleton] at h
    exact Or.inl h

theorem kShortestPaths_length_le (g : Digraph) (s t : String) :
    (kShortestPaths g s t).length ≤ 7 := by
  unfold kShortestPaths
  by_cases h : s ∈ g.nodes ∧ t ∈ g.nodes ∧ sortByLen (simplePaths g s t) ≠ []
  · rw [if_pos h]
    simp [List.length_take]
  · rw [if_neg h]
    simp

theorem cap10_ne_nil (l : List (List String)) (h : l ≠ []) : cap10 l ≠ [] := by
  unfold cap10
  by_cases hl : 10 < l.length
  · rw [if_pos hl]
    intro he
    rcases List.take_eq_nil_iff.mp he with h10 | hnil
    · exact absurd h10 (by norm_num)
    · exact h hnil
  · rw [if_neg hl]
    exact h

theorem cap10_subset (l : List (List String)) (p : List String) (h : p ∈ cap10 l) : p ∈ l := by
  unfold cap10 at h
  by_cases hl : 10 < l.length
  · rw [if_pos hl] at h
    exact List.take_subset _ _ h
  · rwa [if_neg hl] at h

theorem cap10_length_le (l : List (List String)) : (cap10 l).length ≤ 10 := by
  unfold cap10
  by_cases hl : 10 < l.length
  · rw [if_pos hl]
    simp [List.length_take]
  · rw [if_neg hl]
    omega

theorem find_execution_path_ok (g u : Digraph) (n1 n2 ld : String)
    (lg : List String) (r : Nat) :
    ∃ seg, find_execution_path g u n1 n2 ld lg r = Except.ok seg ∧
      seg.length ≤ g.nodes.length + 2 ∧ (seg.drop 1 = [] ∨ seg.getLast? = some n2) := by
  by_cases h0 : n1 = n2 ∧ n2 ∈ outDests g n1
  · refine ⟨[n1, n2], ?_, by simp, Or.inr (by simp)⟩
    unfold find_execution_path
    rw [if_pos h0]
  · simp only [find_execution_path]
    rw [if_neg h0]
    set np := (if n1 = n2 then ld else n1) with hnp
    set direct := cap10 (kShortestPaths g np n2) with hdir
    have hne : direct ≠ [] := cap10_ne_nil _ (kShortestPaths_ne_nil g np n2)
    rw [if_neg hne]
    set cleaned := direct.filter (fun p => !(hasLoggedInterior lg p)) with hcl
    by_cases hc : cleaned = []
    · rw [if_pos hc]
      exact ⟨[], rfl, by simp, Or.inl rfl⟩
    · rw [if_neg hc, if_pos hne]
      set choice := cleaned.getD (r % cleaned.length) [] with hch
      have hmem : choice ∈ cleaned :=
        getD_mem_of_lt _ _ _ (Nat.mod_lt r (List.length_pos.mpr hc))
      have hks : choice ∈ kShortestPaths g np n2 :=
        cap10_subset _ _ (List.mem_of_mem_filter hmem)
      rcases kShortestPaths_mem g np n2 choice hks with hnil | hld
      · exact ⟨choice, rfl, by rw [hnil]; simp, Or.inl (by rw [hnil]; rfl)⟩
      · exact ⟨choice, rfl, by omega, Or.inr hld.1⟩

theorem reconstructGo_spec (g u : Digraph) (lg : List String) (rnd : Nat → Nat) :
    ∀ (logs : List String) (i : Nat) (acc : List String),
      ∃ ext, reconstructGo g u lg rnd i acc logs = Except.ok (acc ++ ext) ∧
        List.Sublist logs ext ∧ logs.length ≤ ext.length ∧
        ext.length ≤ logs.length * (g.nodes.length + 2) := by
  intro logs
  induction logs with
  | nil =>
    intro i acc
    exact ⟨[], by simp [reconstructGo], List.Sublist.refl [], by simp, by simp⟩
  | cons node rest ih =>
    intro i acc
    obtain ⟨seg, hseg, hlen, hlast⟩ :=
      find_execution_path_ok g u (acc.getLastD "") node (find_last_dif acc node) lg (rnd i)
    by_cases hnp : seg.drop 1 = []
    · obtain ⟨ext, hgo, hsub, hlb, hub⟩ := ih (i + 1) (acc ++ [node])
      refine ⟨[node] ++ ext, ?_, ?_, ?_, ?_⟩
      · simp only [reconstructGo, hseg, hnp, if_pos]
        rw [hgo, List.append_assoc]
      · exact List.Sublist.append (List.Sublist.refl [node]) hsub
      · simp only [List.length_append, List.length_cons, List.length_singleton]
        omega
      · simp only [List.length_append, List.length_cons, List.length_nil,
          Nat.succ_mul]
        omega
    · obtain ⟨ext, hgo, hsub, hlb, hub⟩ := ih (i + 1) (acc ++ seg.drop 1)
      have hlast2 : (seg.drop 1).getLast? = some node := by
        rcases hlast with h | h
        · exact absurd h hnp
        · rw [drop_one_getLast? seg hnp]; exact h
      have hmem : node ∈ seg.drop 1 := mem_of_getLast?_eq _ _ hlast2
      refine ⟨seg.drop 1 ++ ext, ?_, ?_, ?_, ?_⟩
      · simp only [reconstructGo, hseg, if_neg hnp]
        rw [hgo, List.append_assoc]
      · exact List.Sublist.append (List.singleton_sublist.mpr hmem) hsub
      · have h1 : 0 < (seg.drop 1).length := List.length_pos.mpr hnp
        simp only [List.length_append, List.length_cons]
        omega
      · have h2 : (seg.drop 1).length ≤ g.nodes.length + 2 := by
          simp only [List.length_drop]
          omega
        have hmul : (rest.length + 1) * (g.nodes.length + 2)
            = rest.length * (g.nodes.length + 2) + (g.nodes.length + 2) := by ring
        simp only [List.length_append, List.length_cons]
        omega

/-! ### Claim theorems -/

/-- Claim C1 (code_bug evaluation): at the concrete graph `gNoPath`, where
no path from `A` to `Y` exists, `k_shortest_paths` returns `[[]]` — a
collection containing one empty path — rather than the empty collection
the claim describes.  Callers that detect path absence by emptiness
(`if not paths:` in `find_execution_path`, `if shortened_paths:` in
`cut_executed_nodes`) therefore never see an empty result. -/
theorem c1_no_path_gives_singleton_empty :
    kShortestPaths gNoPath "A" "Y" = [[]] := rfl

/-- Claim C2 (code_bug evaluation): on the graph `gNoPath` and the
non-empty path `[A, Y]`, node `A` has no forward directed path to the
final node `Y`, so the claim requires the returned suffix to start at `Y`
(result `[Y]`).  Because `k_shortest_paths` returns the truthy `[[]]` on
failure, `cut_executed_nodes` accepts index 0 and returns the whole path
`[A, Y]` unchanged; the fatal "No ancestor node." abort is unreachable for
every non-empty path. -/
theorem c2_cut_returns_whole_path :
    cut_executed_nodes gNoPath ["A", "Y"] = Except.ok ["A", "Y"] := rfl

/-- Claim C3: every bounded search and the whole reconstruction respect
the stated bounds.  `k_shortest_paths` yields at most `K = 7` candidates,
the defensive cap keeps at most 10, and `reconstruct_path` terminates
(it is a total function of this development) with an output of length at
most `|logs| * (|nodes| + 2)`, so no step accumulates candidates without
bound. -/
theorem c3_reconstruction_bounded (g : Digraph) (s t source : String)
    (logs : List String) (rnd : Nat → Nat) :
    (kShortestPaths g s t).length ≤ 7 ∧
    (cap10 (kShortestPaths g s t)).length ≤ 10 ∧
    ∃ out, reconstruct_path g logs source rnd = Except.ok out ∧
      out.length ≤ logs.length * (g.nodes.length + 2) := by
  refine ⟨kShortestPaths_length_le g s t, cap10_length_le _, ?_⟩
  obtain ⟨ext, hgo, _, _, hub⟩ := reconstructGo_spec g (undirect g) logs rnd logs 0 [source]
  refine ⟨ext, ?_, hub⟩
  unfold reconstruct_path
  rw [hgo]
  simp

/-- Claim C6: for every call graph, source node, log sequence and random
source, the reconstruction completes with an output at least as long as
the log sequence, and the log sequence is a (not necessarily contiguous)
subsequence of the output in its original order. -/
theorem c6_logs_subsequence_of_output (g : Digraph) (logs : List String)
    (source : String) (rnd : Nat → Nat) :
    ∃ out, reconstruct_path g logs source rnd = Except.ok out ∧
      logs.length ≤ out.length ∧ List.Sublist logs out := by
  obtain ⟨ext, hgo, hsub, hlb, _⟩ := reconstructGo_spec g (undirect g) logs rnd logs 0 [source]
  refine ⟨ext, ?_, hlb, hsub⟩
  unfold reconstruct_path
  rw [hgo]
  simp

/-- Claim C8: if a node carries a directed self-loop and is requested as
its own immediate reconstruction target (`node1 = node2`), the segment
finder returns exactly `[node, node]`, for every draw of the random
source, hence identically across any two runs. -/
theorem c8_self_loop_deterministic (g u : Digraph) (n ld : String)
    (lg : List String) (r1 r2 : Nat) (h : n ∈ outDests g n) :
    find_execution_path g u n n ld lg r1 = Except.ok [n, n] ∧
    find_execution_path g u n n ld lg r1 = find_execution_path g u n n ld lg r2 := by
  have e : ∀ r : Nat, find_execution_path g u n n ld lg r = Except.ok [n, n] := by
    intro r
    unfold find_execution_path
    rw [if_pos ⟨rfl, h⟩]
  exact ⟨e r1, (e r1).trans (e r2).symm⟩

/-- Witness for C8: the self-loop graph `gLoop` at two different draws. -/
theorem c8_witness :
    ("L" ∈ outDests gLoop "L") ∧
    (find_execution_path gLoop gLoop "L" "L" "Z" [] 0 = Except.ok ["L", "L"] ∧
     find_execution_path gLoop gLoop "L" "L" "Z" [] 0 =
       find_execution_path gLoop gLoop "L" "L" "Z" [] 1) :=
  ⟨by decide, c8_self_loop_deterministic gLoop gLoop "L" "Z" [] 0 1 (by decide)⟩

/-- Claim C10: reconstructing with an empty log sequence returns the empty
list without any error: the loop body never runs, and the seeded source
node is stripped by the final `reconstruction[1:]`. -/
theorem c10_empty_logs (g : Digraph) (source : String) (rnd : Nat → Nat) :
    reconstruct_path g [] source rnd = Except.ok [] := rfl

/-- Claim C4 (code_bug evaluation): on the graph `gChain`
(edges `S → X`, `X → Y`) and the path `[X, X, Y]`, both scans place the
last violation at position 1 and the suffix `[X, Y]` from that position is
forward-consistent, so the claim requires the result `[X, Y]`
(`is_path_direct_spec`).  The code instead rejects the path: its first
loop tests membership in `e[1]`-projected in-edges (always the node
itself) and its second loop compares `path[dir_change_index + index]`
against `path[index + 1]`, so it checks the pair `(X, X)` instead of the
consecutive pair `(X, Y)` and returns the empty result. -/
theorem c4_direction_extraction_diverges :
    is_path_direct gChain ["X", "X", "Y"] = [] ∧
    is_path_direct_spec gChain ["X", "X", "Y"] = ["X", "Y"] := ⟨rfl, rfl⟩

/-! ### Evaluation lemmas (match / true-positive) -/

theorem matchGo_nil (real : List String) :
    matchGo [] real 0 = real.map (fun _ => " ") := by
  induction real with
  | nil => rfl
  | cons x xs ih => simp [matchGo, ih]

theorem matchGo_length (recon : List String) :
    ∀ (real : List String) (r : Nat), (matchGo recon real r).length = real.length := by
  intro real
  induction real with
  | nil => intro r; rfl
  | cons x xs ih =>
    intro r
    simp only [matchGo]
    by_cases h1 : r = recon.length
    · rw [if_pos h1]
      simp [ih]
    · rw [if_neg h1]
      by_cases h2 : x = recon.getD r ""
      · rw [if_pos h2]
        simp [ih]
      · rw [if_neg h2]
        simp [ih]

theorem gtpGo_ok_of_le :
    ∀ (real matched : List String), real.length ≤ matched.length →
      ∃ tp, gtpGo real matched = Except.ok tp ∧ tp ≤ real.length := by
  intro real
  induction real with
  | nil => intro matched h; exact ⟨0, rfl, Nat.le_refl 0⟩
  | cons x xs ih =>
    intro matched h
    match matched with
    | [] => simp at h
    | m :: ms =>
      have hms : xs.length ≤ ms.length := by simp at h; omega
      obtain ⟨tp, htp, hle⟩ := ih ms hms
      refine ⟨if x = m then tp + 1 else tp, ?_, ?_⟩
      · simp [gtpGo, htp]
      · by_cases hxm : x = m
        · simp [hxm]; omega
        · simp [hxm]; omega

theorem gtp_matchGo_bound (recon : List String) :
    ∀ (real : List String) (r : Nat), " " ∉ real → r ≤ recon.length →
      ∃ tp, gtpGo real (matchGo recon real r) = Except.ok tp ∧ tp + r ≤ recon.length := by
  intro real
  induction real with
  | nil => intro r hsp hr; exact ⟨0, rfl, by omega⟩
  | cons x xs ih =>
    intro r hsp hr
    have hx : x ≠ " " := by
      intro he
      exact hsp (he ▸ List.mem_cons_self x xs)
    have hsp' : " " ∉ xs := fun hm => hsp (List.mem_cons_of_mem x hm)
    by_cases h1 : r = recon.length
    · obtain ⟨tp, htp, hb⟩ := ih r hsp' hr
      refine ⟨tp, ?_, by omega⟩
      simp only [matchGo, if_pos h1, gtpGo, htp]
      simp [hx]
    · have hr' : r + 1 ≤ recon.length := by omega
      by_cases h2 : x = recon.getD r ""
      · obtain ⟨tp, htp, hb⟩ := ih (r + 1) hsp' hr'
        refine ⟨tp + 1, ?_, by omega⟩
        simp only [matchGo, if_neg h1, if_pos h2, gtpGo, htp]
        simp
      · obtain ⟨tp, htp, hb⟩ := ih r hsp' hr
        refine ⟨tp, ?_, by omega⟩
        simp only [matchGo, if_neg h1, if_neg h2, gtpGo, htp]
        simp [hx]

theorem sourceCandidates_mem (g : Digraph) (x : String) :
    x ∈ sourceCandidates g ↔ x ∈ g.nodes ∧ inDegree g x = 0 := by
  unfold sourceCandidates
  rw [List.mem_filter]
  simp

/-- Claim C5 counterexample: precision requested with an empty
reconstructed sequence does not yield a reported evaluation-error value:
the division `tp / len(reconstructed)` raises an uncaught
`ZeroDivisionError`, i.e. exactly the unhandled crash the claim rules
out (the code has no evaluation-error value at all). -/
theorem c5_counterexample :
    evaluate_precision ["A"] [] = Except.error PyErr.zeroDivision := rfl

/-- Claim C5 amended: precision with an empty reconstructed sequence
raises an uncaught `ZeroDivisionError`; recall with an empty matched
sequence raises an uncaught `IndexError` when the reference is non-empty
(the subscript `matched[index]` fails before the division) and an
uncaught `ZeroDivisionError` when the reference is empty.  The caller
sees a propagated exception, never a NaN and never a reported
evaluation-error value. -/
theorem c5_amended (real : List String) :
    evaluate_precision real [] = Except.error PyErr.zeroDivision ∧
    evaluate_recall real [] =
      Except.error
        (match real with
          | [] => PyErr.zeroDivision
          | _ :: _ => PyErr.indexError) := by
  constructor
  · have hm : match_reconstruction real [] = real.map (fun _ => " ") := matchGo_nil real
    have hlen : real.length ≤ (real.map (fun _ => " ")).length := by simp
    obtain ⟨tp, htp, _⟩ := gtpGo_ok_of_le real _ hlen
    unfold evaluate_precision get_true_positive
    rw [hm, htp]
    simp
  · cases real with
    | nil => rfl
    | cons x xs => rfl

/-- Claim C7 counterexample: with the reference `[" ", " "]` — two nodes
named by the gap-marker string — and the reconstruction `["A"]`, every
matched slot is a gap equal to the reference entry, so `truePositives = 2`
while `length(reconstructed) = 1`, and the returned precision is `2`,
outside `[0, 1]`. -/
theorem c7_counterexample :
    evaluate_precision [" ", " "] ["A"] = Except.ok 2 ∧ ¬((2 : ℚ) ≤ 1) := by
  constructor
  · have h : evaluate_precision [" ", " "] ["A"]
        = Except.ok (((2 : ℕ) : ℚ) / ((1 : ℕ) : ℚ)) := rfl
    rw [h]
    norm_num
  · norm_num

/-- Claim C7 amended: provided the reference sequence contains no
occurrence of the gap marker `" "` and the denominators are non-zero
(`reconstructed` non-empty for precision, `real` non-empty for recall on
the matched sequence produced by `match_reconstruction`), precision and
recall are returned and lie in `[0, 1]`. -/
theorem c7_amended (real reconstructed : List String)
    (h1 : " " ∉ real) (h2 : reconstructed ≠ []) (h3 : real ≠ []) :
    ∃ p r : ℚ,
      evaluate_precision real reconstructed = Except.ok p ∧
      evaluate_recall real (match_reconstruction real reconstructed) = Except.ok r ∧
      0 ≤ p ∧ p ≤ 1 ∧ 0 ≤ r ∧ r ≤ 1 := by
  obtain ⟨tp, htp, hb⟩ := gtp_matchGo_bound reconstructed real 0 h1 (Nat.zero_le _)
  have hlen : reconstructed.length ≠ 0 := fun h => h2 (List.length_eq_zero.mp h)
  have hpos : (0 : ℚ) < (reconstructed.length : ℚ) := by
    exact_mod_cast Nat.pos_of_ne_zero hlen
  have hml : (match_reconstruction real reconstructed).length = real.length :=
    matchGo_length reconstructed real 0
  obtain ⟨tp2, htp2, hb2⟩ :=
    gtpGo_ok_of_le real (match_reconstruction real reconstructed) (le_of_eq hml.symm)
  have hlen2 : (match_reconstruction real reconstructed).length ≠ 0 := by
    rw [hml]
    exact fun h => h3 (List.length_eq_zero.mp h)
  have hpos2 : (0 : ℚ) < ((match_reconstruction real reconstructed).length : ℚ) := by
    exact_mod_cast Nat.pos_of_ne_zero hlen2
  refine ⟨(tp : ℚ) / (reconstructed.length : ℚ),
      (tp2 : ℚ) / ((match_reconstruction real reconstructed).length : ℚ),
      ?_, ?_, ?_, ?_, ?_, ?_⟩
  · unfold evaluate_precision get_true_positive match_reconstruction at *
    rw [htp]
    simp [hlen]
  · unfold evaluate_recall get_true_positive
    rw [htp2]
    simp [hlen2]
  · exact div_nonneg (Nat.cast_nonneg tp) (le_of_lt hpos)
  · rw [div_le_one hpos]
    exact_mod_cast (by omega : tp ≤ reconstructed.length)
  · exact div_nonneg (Nat.cast_nonneg tp2) (le_of_lt hpos2)
  · rw [div_le_one hpos2]
    have htb : tp2 ≤ (match_reconstruction real reconstructed).length := by
      rw [hml]; exact hb2
    exact_mod_cast htb

/-- Witness for the amended C7 at reference `["A", "B"]` and
reconstruction `["A"]`. -/
theorem c7_witness :
    (" " ∉ (["A", "B"] : List String)) ∧ (["A"] : List String) ≠ [] ∧
    (["A", "B"] : List String) ≠ [] ∧
    (∃ p r : ℚ,
      evaluate_precision ["A", "B"] ["A"] = Except.ok p ∧
      evaluate_recall ["A", "B"] (match_reconstruction ["A", "B"] ["A"]) = Except.ok r ∧
      0 ≤ p ∧ p ≤ 1 ∧ 0 ≤ r ∧ r ≤ 1) :=
  ⟨by decide, by decide, by decide,
    c7_amended ["A", "B"] ["A"] (by decide) (by decide) (by decide)⟩

/-- Claim C9: when a graph with duplicate-free nodes has exactly one
in-degree-zero node, `get_source` returns it; when there are zero or
several such nodes it fails with the structure error listing the
candidates rather than returning an arbitrary node. -/
theorem c9_source_unique (g : Digraph) (hnd : g.nodes.Nodup) :
    ((∃! n, n ∈ g.nodes ∧ inDegree g n = 0) →
      ∃ n, get_source g = Except.ok n ∧ n ∈ g.nodes ∧ inDegree g n = 0) ∧
    (¬(∃! n, n ∈ g.nodes ∧ inDegree g n = 0) →
      ∃ s, get_source g = Except.error (PyErr.multipleSources s)) := by
  constructor
  · rintro ⟨n, hn, huniq⟩
    have hnS : n ∈ sourceCandidates g := (sourceCandidates_mem g n).mpr hn
    have hall : ∀ x ∈ sourceCandidates g, x = n :=
      fun x hx => huniq x ((sourceCandidates_mem g x).mp hx)
    have hnodup : (sourceCandidates g).Nodup := hnd.filter _
    have heq : sourceCandidates g = [n] := by
      rcases hcase : sourceCandidates g with _ | ⟨a, tS⟩
      · rw [hcase] at hnS
        exact absurd hnS (List.not_mem_nil n)
      · have ha : a = n := hall a (by rw [hcase]; exact List.mem_cons_self a tS)
        rcases hcase2 : tS with _ | ⟨b, tb⟩
        · rw [ha]
        · have hb : b = n := hall b (by rw [hcase, hcase2]; simp)
          rw [hcase, hcase2] at hnodup
          have hnm : a ∉ b :: tb := (List.nodup_cons.mp hnodup).1
          rw [ha, hb] at hnm
          exact absurd (List.mem_cons_self n tb) hnm
    refine ⟨n, ?_, hn.1, hn.2⟩
    unfold get_source
    rw [heq]
    simp
  · intro hne
    have hlen : (sourceCandidates g).length ≠ 1 := by
      intro h1
      obtain ⟨a, ha⟩ := List.length_eq_one.mp h1
      apply hne
      refine ⟨a, (sourceCandidates_mem g a).mp (by rw [ha]; simp), ?_⟩
      intro y hy
      have hyS : y ∈ sourceCandidates g := (sourceCandidates_mem g y).mpr hy
      rw [ha] at hyS
      simpa using hyS
    refine ⟨sourceCandidates g, ?_⟩
    unfold get_source
    have hf : ((sourceCandidates g).length == 1) = false := by
      simpa using hlen
    rw [hf]
    simp

/-- Witness for C9: the graph `gSrc` whose unique in-degree-zero node is
`A`. -/
theorem c9_witness :
    gSrc.nodes.Nodup ∧
    ∃ n, get_source gSrc = Except.ok n ∧ n ∈ gSrc.nodes ∧ inDegree gSrc n = 0 := by
  refine ⟨by decide, (c9_source_unique gSrc (by decide)).1 ⟨"A", ⟨?_, ?_⟩, ?_⟩⟩
  · decide
  · decide
  · rintro y ⟨hy, hdeg⟩
    have hmem : y = "A" ∨ y = "B" := by simpa [gSrc] using hy
    rcases hmem with rfl | rfl
    · rfl
    · exact absurd hdeg (by decide)

end PathReconstructor
